import Mathlib

/-!
Verification of the price-query core of the Green Planet Energy API client
(`greenplanet_energy_api/api.py`).  The price data is a Python dict from
string keys (`gpe_price_HH`, `gpe_price_HH_tomorrow`) to float prices; it is
embedded as an association list with rational values.  Every query method of
the source is translated below; the sliding-window search
(`_find_cheapest_window`) is decomposed into named pieces (`windowCalc`,
`bestLoop`, ...) that mirror the source's loop structure line by line.
-/

/-- Association-list embedding of the Python price dict `dict[str, float]`.
Keys are unique in a Python dict; lemmas that depend on this carry an
explicit nodup hypothesis. -/
abbrev PriceData := List (String × ℚ)

/-- Dict lookup: `data.get(key)` / `key in data and data[key]`. -/
def lookup (data : PriceData) (k : String) : Option ℚ :=
  (data.find? (fun kv => kv.1 == k)).map (·.2)

/-- Boolean list-prefix test, the model of Python `str.startswith` /
(reversed) `str.endswith` on the underlying character sequences. -/
def isPrefixL : List Char → List Char → Bool
  | [], _ => true
  | _, [] => false
  | a :: as, b :: bs => a == b && isPrefixL as bs

/-- Model of Python `s.startswith(p)`. -/
def strStarts (p s : String) : Bool := isPrefixL p.data s.data

/-- Model of Python `s.endswith(p)`. -/
def strEnds (p s : String) : Bool := isPrefixL p.data.reverse s.data.reverse

/-- Zero-padded two-digit hour, the model of the f-string `f"{hour:02d}"`
for hours 0–23. -/
def pad2 (h : ℕ) : String := if h < 10 then "0" ++ toString h else toString h

/-- Key for today's price at a given hour: `f"gpe_price_{hour:02d}"`. -/
def todayKey (h : ℕ) : String := "gpe_price_" ++ pad2 h

/-- Key for tomorrow's price at a given hour:
`f"gpe_price_{hour:02d}_tomorrow"`. -/
def tomorrowKey (h : ℕ) : String := "gpe_price_" ++ pad2 h ++ "_tomorrow"

/-- Model of Python `min` on a list of floats (`None` on the empty list,
mirroring the guarded `min(prices) if prices else None`). -/
def pyMin : List ℚ → Option ℚ
  | [] => none
  | x :: xs =>
    match pyMin xs with
    | none => some x
    | some m => some (min x m)

/-- Model of Python `max` on a list of floats. -/
def pyMax : List ℚ → Option ℚ
  | [] => none
  | x :: xs =>
    match pyMax xs with
    | none => some x
    | some m => some (max x m)

/-- The list comprehension inside `get_highest_price_today`: all values
whose key starts with `gpe_price_` and does not end with `_tomorrow`. -/
def todayValues (data : PriceData) : List ℚ :=
  data.filterMap (fun kv =>
    if strStarts "gpe_price_" kv.1 && !(strEnds "_tomorrow" kv.1) then some kv.2 else none)

/-- `get_highest_price_today` (api.py lines 197–217). -/
def get_highest_price_today (data : PriceData) : Option ℚ :=
  if data = [] then none else pyMax (todayValues data)

/-- Day-period hours `range(6, 18)`. -/
def dayHours : List ℕ := List.range' 6 12

/-- Night-period hours `list(range(18, 24)) + list(range(6))`. -/
def nightHours : List ℕ := List.range' 18 6 ++ List.range 6

/-- `get_lowest_price_day` (api.py lines 219–239). -/
def get_lowest_price_day (data : PriceData) : Option ℚ :=
  if data = [] then none
  else pyMin (dayHours.filterMap (fun h => lookup data (todayKey h)))

/-- `get_lowest_price_night` (api.py lines 241–270): evening hours today,
then early-morning hours tomorrow. -/
def get_lowest_price_night (data : PriceData) : Option ℚ :=
  if data = [] then none
  else pyMin ((List.range' 18 6).filterMap (fun h => lookup data (todayKey h))
      ++ (List.range 6).filterMap (fun h => lookup data (tomorrowKey h)))

/-- `get_current_price` (api.py lines 272–286). -/
def get_current_price (data : PriceData) (hour : ℕ) : Option ℚ :=
  if data = [] then none else lookup data (todayKey hour)

/-- `get_highest_price_today_with_hour` (api.py lines 288–308): recompute
the maximum, then rescan hours 0–23 for the first hour carrying it. -/
def get_highest_price_today_with_hour (data : PriceData) : Option ℚ × Option ℕ :=
  match get_highest_price_today data with
  | none => (none, none)
  | some hp =>
    if data = [] then (none, none)
    else
      match (List.range 24).find? (fun h => decide (lookup data (todayKey h) = some hp)) with
      | some h => (some hp, some h)
      | none => (some hp, none)

/-- `get_lowest_price_day_with_hour` (api.py lines 310–330). -/
def get_lowest_price_day_with_hour (data : PriceData) : Option ℚ × Option ℕ :=
  match get_lowest_price_day data with
  | none => (none, none)
  | some lp =>
    if data = [] then (none, none)
    else
      match (List.range' 6 12).find? (fun h => decide (lookup data (todayKey h) = some lp)) with
      | some h => (some lp, some h)
      | none => (some lp, none)

/-- `get_lowest_price_night_with_hour` (api.py lines 332–359): rescan
evening hours 18–23 of today first, then hours 0–5 of tomorrow. -/
def get_lowest_price_night_with_hour (data : PriceData) : Option ℚ × Option ℕ :=
  match get_lowest_price_night data with
  | none => (none, none)
  | some lp =>
    if data = [] then (none, none)
    else
      match (List.range' 18 6).find? (fun h => decide (lookup data (todayKey h) = some lp)) with
      | some h => (some lp, some h)
      | none =>
        match (List.range 6).find? (fun h => decide (lookup data (tomorrowKey h) = some lp)) with
        | some h => (some lp, some h)
        | none => (some lp, none)

/-- Key selection inside `_find_cheapest_window`: tomorrow's key for hours
0–5 when `use_tomorrow` is set, today's key otherwise. -/
def slotKey (useTomorrow : Bool) (h : ℕ) : String :=
  if useTomorrow && decide (h < 6) then tomorrowKey h else todayKey h

/-- Gap-skipping materialization: pair each hour with its price when the
hour resolves to available data (`hour_prices` in the source). -/
def pairsOf (f : ℕ → Option ℚ) (hours : List ℕ) : List (ℕ × ℚ) :=
  hours.filterMap (fun h => (f h).map (fun p => (h, p)))

/-- The `hour_prices` list of `_find_cheapest_window` (api.py lines 429–438). -/
def hourPrices (data : PriceData) (hours : List ℕ) (useTomorrow : Bool) : List (ℕ × ℚ) :=
  pairsOf (fun h => lookup data (slotKey useTomorrow h)) hours

/-- Python `int()` truncation toward zero on a rational. -/
def pyTrunc (q : ℚ) : ℤ := if 0 ≤ q then ⌊q⌋ else ⌈q⌉

/-- Python `q % 1`, the fractional part with the sign of the divisor. -/
def pyMod1 (q : ℚ) : ℚ := q - ⌊q⌋

/-- The `has_fraction` flag: `duration_hours % 1 != 0`. -/
def hasFracB (d : ℚ) : Bool := decide (pyMod1 d ≠ 0)

/-- One window placement (api.py lines 453–466): for start index `i`, sum
prices of the `window_size` full slots (each guarded by a bounds check) and,
in the fractional case, add the trailing slot weighted by the fraction.
Returns `(window_sum, window_hours)`. -/
def windowCalc (hp : List (ℕ × ℚ)) (wsz : ℤ) (hasFrac : Bool) (frac : ℚ) (i : ℕ) : ℚ × ℚ :=
  let base := (List.range wsz.toNat).foldl
    (fun acc j => if i + j < hp.length then (acc.1 + (hp.getD (i + j) (0, 0)).2, acc.2 + 1) else acc)
    ((0 : ℚ), (0 : ℚ))
  if hasFrac && decide ((i : ℤ) + wsz < (hp.length : ℤ)) then
    (base.1 + (hp.getD ((i : ℤ) + wsz).toNat (0, 0)).2 * frac, base.2 + frac)
  else base

/-- Number of start indices scanned:
`range(len(hour_prices) - window_size + (0 if has_fraction else 1))`. -/
def startCount (n : ℕ) (d : ℚ) : ℕ :=
  ((n : ℤ) - pyTrunc d + (if hasFracB d then 0 else 1)).toNat

/-- Coverage test of a placement (api.py lines 469–471):
`window_hours >= duration_hours - 0.01`. -/
def validAt (hp : List (ℕ × ℚ)) (d : ℚ) (i : ℕ) : Bool :=
  decide ((windowCalc hp (pyTrunc d) (hasFracB d) (pyMod1 d) i).2 ≥ d - 1 / 100)

/-- Average price of a placement: `window_sum / duration_hours`. -/
def avgAt (hp : List (ℕ × ℚ)) (d : ℚ) (i : ℕ) : ℚ :=
  (windowCalc hp (pyTrunc d) (hasFracB d) (pyMod1 d) i).1 / d

/-- Hour of the slot at start index `i`: `hour_prices[i][0]`. -/
def startHourAt (hp : List (ℕ × ℚ)) (i : ℕ) : ℕ := (hp.getD i (0, 0)).1

/-- One iteration of the minimum-tracking loop (api.py lines 472–475): the
best is replaced only on a strict improvement of the average. -/
def bestStep (v : ℕ → Bool) (a : ℕ → ℚ) (hr : ℕ → ℕ)
    (best : Option (ℚ × ℕ)) (i : ℕ) : Option (ℚ × ℕ) :=
  if v i then
    match best with
    | none => some (a i, hr i)
    | some b => if a i < b.1 then some (a i, hr i) else best
  else best

/-- The whole sliding-window loop, starting from no recorded best
(`best_avg_price = inf`, `best_start_hour = None`). -/
def bestLoop (v : ℕ → Bool) (a : ℕ → ℚ) (hr : ℕ → ℕ) (l : List ℕ) : Option (ℚ × ℕ) :=
  l.foldl (bestStep v a hr) none

/-- `_find_cheapest_window` (api.py lines 407–480). -/
def findCheapestWindow (data : PriceData) (hours : List ℕ) (d : ℚ) (useTomorrow : Bool) :
    Option ℚ × Option ℕ :=
  if hours = [] ∨ (hours.length : ℚ) < d then (none, none)
  else
    let hp := hourPrices data hours useTomorrow
    if hp = [] then (none, none)
    else
      match bestLoop (validAt hp d) (avgAt hp d) (startHourAt hp)
          (List.range (startCount hp.length d)) with
      | none => (none, none)
      | some b => (some b.1, some b.2)

/-- `get_cheapest_duration_day` (api.py lines 361–382). -/
def get_cheapest_duration_day (data : PriceData) (d : ℚ) : Option ℚ × Option ℕ :=
  if data = [] ∨ d ≤ 0 then (none, none)
  else findCheapestWindow data dayHours d false

/-- `get_cheapest_duration_night` (api.py lines 384–405). -/
def get_cheapest_duration_night (data : PriceData) (d : ℚ) : Option ℚ × Option ℕ :=
  if data = [] ∨ d ≤ 0 then (none, none)
  else findCheapestWindow data nightHours d true

/-! ### Lemmas about the minimum-tracking loop -/

theorem bestStep_none_pos {v : ℕ → Bool} (a : ℕ → ℚ) (hr : ℕ → ℕ) {i : ℕ} (hv : v i = true) :
    bestStep v a hr none i = some (a i, hr i) := by simp [bestStep, hv]

theorem bestStep_none_neg {v : ℕ → Bool} (a : ℕ → ℚ) (hr : ℕ → ℕ) {i : ℕ} (hv : v i = false) :
    bestStep v a hr none i = none := by simp [bestStep, hv]

theorem bestStep_some_pos {v : ℕ → Bool} (a : ℕ → ℚ) (hr : ℕ → ℕ) {i : ℕ} (b : ℚ × ℕ)
    (hv : v i = true) :
    bestStep v a hr (some b) i = if a i < b.1 then some (a i, hr i) else some b := by
  simp [bestStep, hv]

theorem bestStep_some_neg {v : ℕ → Bool} (a : ℕ → ℚ) (hr : ℕ → ℕ) {i : ℕ} (b : ℚ × ℕ)
    (hv : v i = false) :
    bestStep v a hr (some b) i = some b := by simp [bestStep, hv]

theorem foldl_bestStep_some (v : ℕ → Bool) (a : ℕ → ℚ) (hr : ℕ → ℕ) (l : List ℕ) (b : ℚ × ℕ) :
    l.foldl (bestStep v a hr) (some b) =
      match l.foldl (bestStep v a hr) none with
      | none => some b
      | some c => if c.1 < b.1 then some c else some b := by
  induction l generalizing b with
  | nil => simp
  | cons i t ih =>
    simp only [List.foldl_cons]
    by_cases hv : v i = true
    · rw [bestStep_some_pos a hr b hv, bestStep_none_pos a hr hv]
      by_cases hab : a i < b.1
      · rw [if_pos hab, ih (a i, hr i)]
        cases hM : t.foldl (bestStep v a hr) none with
        | none => simp [hab]
        | some c =>
          by_cases h1 : c.1 < a i
          · have h2 : c.1 < b.1 := lt_trans h1 hab
            simp [h1, h2]
          · simp [h1, hab]
      · have hba : b.1 ≤ a i := not_lt.mp hab
        rw [if_neg hab, ih b, ih (a i, hr i)]
        cases hM : t.foldl (bestStep v a hr) none with
        | none => simp [hab]
        | some c =>
          by_cases h1 : c.1 < a i
          · simp [h1]
          · have h2 : ¬ c.1 < b.1 := fun hc => h1 (lt_of_lt_of_le hc hba)
            simp [h1, h2, hab]
    · rw [bestStep_some_neg a hr b (by simpa using hv), bestStep_none_neg a hr (by simpa using hv)]
      exact ih b

theorem bestLoop_nil (v : ℕ → Bool) (a : ℕ → ℚ) (hr : ℕ → ℕ) :
    bestLoop v a hr [] = none := rfl

theorem bestLoop_cons (v : ℕ → Bool) (a : ℕ → ℚ) (hr : ℕ → ℕ) (i : ℕ) (t : List ℕ) :
    bestLoop v a hr (i :: t) =
      if v i then
        match bestLoop v a hr t with
        | none => some (a i, hr i)
        | some c => if c.1 < a i then some c else some (a i, hr i)
      else bestLoop v a hr t := by
  unfold bestLoop
  simp only [List.foldl_cons]
  by_cases hv : v i = true
  · rw [bestStep_none_pos a hr hv, foldl_bestStep_some, if_pos hv]
  · rw [bestStep_none_neg a hr (by simpa using hv), if_neg hv]

theorem bestLoop_eq_none (v : ℕ → Bool) (a : ℕ → ℚ) (hr : ℕ → ℕ) (l : List ℕ)
    (h : bestLoop v a hr l = none) : ∀ i ∈ l, v i = false := by
  induction l with
  | nil => simp
  | cons i t ih =>
    rw [bestLoop_cons] at h
    by_cases hv : v i = true
    · rw [if_pos hv] at h
      cases hM : bestLoop v a hr t <;> simp [hM] at h
      split at h <;> simp at h
    · rw [if_neg hv] at h
      intro j hj
      rcases List.mem_cons.mp hj with rfl | hjt
      · simpa using hv
      · exact ih h j hjt

/-- Full characterization of the loop over the index range `[s, s+n)`: a
returned best is a valid placement of minimal average, and every valid
placement strictly before it has strictly larger average (first-win
tie-breaking). -/
theorem bestLoop_range'_spec (v : ℕ → Bool) (a : ℕ → ℚ) (hr : ℕ → ℕ) :
    ∀ (n s : ℕ) (q : ℚ) (h : ℕ), bestLoop v a hr (List.range' s n) = some (q, h) →
      ∃ i, s ≤ i ∧ i < s + n ∧ v i = true ∧ a i = q ∧ hr i = h ∧
        (∀ j, s ≤ j → j < i → v j = true → q < a j) ∧
        (∀ j, s ≤ j → j < s + n → v j = true → q ≤ a j) := by
  intro n
  induction n with
  | zero => intro s q h hres; simp [bestLoop] at hres
  | succ n ih =>
    intro s q h hres
    rw [List.range'_succ, bestLoop_cons] at hres
    by_cases hv : v s = true
    · rw [if_pos hv] at hres
      cases hM : bestLoop v a hr (List.range' (s + 1) n) with
      | none =>
        rw [hM] at hres
        simp only at hres
        obtain ⟨hq, hh⟩ : a s = q ∧ hr s = h := by
          constructor <;> [exact congrArg Prod.fst (Option.some.inj hres);
            exact congrArg Prod.snd (Option.some.inj hres)]
        have hnone := bestLoop_eq_none v a hr _ hM
        refine ⟨s, le_refl s, by omega, hv, hq, hh, ?_, ?_⟩
        · intro j hj1 hj2; omega
        · intro j hj1 hj2 hvj
          rcases Nat.eq_or_lt_of_le hj1 with rfl | hj1'
          · exact le_of_eq hq.symm
          · exact absurd (hnone j (by rw [List.mem_range'_1]; omega)) (by simp [hvj])
      | some c =>
        rw [hM] at hres
        simp only at hres
        obtain ⟨i, hi1, hi2, hvi, hai, hhi, hfirst, hmin⟩ := ih (s + 1) c.1 c.2 (by rw [hM])
        by_cases hcs : c.1 < a s
        · rw [if_pos hcs] at hres
          have hc : c = (q, h) := Option.some.inj hres
          subst hc
          refine ⟨i, by omega, by omega, hvi, hai, hhi, ?_, ?_⟩
          · intro j hj1 hj2 hvj
            rcases Nat.eq_or_lt_of_le hj1 with rfl | hj1'
            · exact hcs
            · exact hfirst j hj1' hj2 hvj
          · intro j hj1 hj2 hvj
            rcases Nat.eq_or_lt_of_le hj1 with rfl | hj1'
            · exact le_of_lt hcs
            · exact hmin j hj1' (by omega) hvj
        · rw [if_neg hcs] at hres
          obtain ⟨hq, hh⟩ : a s = q ∧ hr s = h := by
            constructor <;> [exact congrArg Prod.fst (Option.some.inj hres);
              exact congrArg Prod.snd (Option.some.inj hres)]
          refine ⟨s, le_refl s, by omega, hv, hq, hh, ?_, ?_⟩
          · intro j hj1 hj2; omega
          · intro j hj1 hj2 hvj
            rcases Nat.eq_or_lt_of_le hj1 with rfl | hj1'
            · exact le_of_eq hq.symm
            · calc q = a s := hq.symm
                _ ≤ c.1 := not_lt.mp hcs
                _ ≤ a j := hmin j hj1' (by omega) hvj
    · rw [if_neg hv] at hres
      obtain ⟨i, hi1, hi2, hvi, hai, hhi, hfirst, hmin⟩ := ih (s + 1) q h hres
      refine ⟨i, by omega, by omega, hvi, hai, hhi, ?_, ?_⟩
      · intro j hj1 hj2 hvj
        rcases Nat.eq_or_lt_of_le hj1 with rfl | hj1'
        · exact absurd hvj (by simpa using hv)
        · exact hfirst j hj1' hj2 hvj
      · intro j hj1 hj2 hvj
        rcases Nat.eq_or_lt_of_le hj1 with rfl | hj1'
        · exact absurd hvj (by simpa using hv)
        · exact hmin j hj1' (by omega) hvj

/-- Specialization to `List.range n` (the loop as the source runs it). -/
theorem bestLoop_range_spec (v : ℕ → Bool) (a : ℕ → ℚ) (hr : ℕ → ℕ) (n : ℕ) (q : ℚ) (h : ℕ)
    (hres : bestLoop v a hr (List.range n) = some (q, h)) :
    ∃ i, i < n ∧ v i = true ∧ a i = q ∧ hr i = h ∧
      (∀ j, j < i → v j = true → q < a j) ∧
      (∀ j, j < n → v j = true → q ≤ a j) := by
  rw [List.range_eq_range'] at hres
  obtain ⟨i, _, hi2, hvi, hai, hhi, hfirst, hmin⟩ := bestLoop_range'_spec v a hr n 0 q h hres
  exact ⟨i, by omega, hvi, hai, hhi,
    fun j hj hvj => hfirst j (Nat.zero_le j) hj hvj,
    fun j hj hvj => hmin j (Nat.zero_le j) (by omega) hvj⟩

/-! ### The duration-1 degenerate case: single-pass minimum over pairs -/

/-- Reference recursion for the loop at duration 1: earliest-win minimum of
a list of `(hour, price)` pairs, returned as `(price, hour)`. -/
def pairBest : List (ℕ × ℚ) → Option (ℚ × ℕ)
  | [] => none
  | x :: t =>
    match pairBest t with
    | none => some (x.2, x.1)
    | some c => if c.1 < x.2 then some c else some (x.2, x.1)

theorem pairBest_eq_none (hp : List (ℕ × ℚ)) : pairBest hp = none ↔ hp = [] := by
  cases hp with
  | nil => simp [pairBest]
  | cons x t =>
    simp only [pairBest]
    cases pairBest t with
    | none => simp
    | some c =>
      simp only
      constructor
      · intro h; split at h <;> simp at h
      · intro h; simp at h

theorem bestLoop_pairBest (v : ℕ → Bool) (a : ℕ → ℚ) (hr : ℕ → ℕ) :
    ∀ (hp : List (ℕ × ℚ)) (s : ℕ),
      (∀ k, k < hp.length → v (s + k) = true ∧ a (s + k) = (hp.getD k (0, 0)).2 ∧
        hr (s + k) = (hp.getD k (0, 0)).1) →
      bestLoop v a hr (List.range' s hp.length) = pairBest hp := by
  intro hp
  induction hp with
  | nil => intro s _; rfl
  | cons x t ih =>
    intro s hk
    obtain ⟨hv0, ha0, hh0⟩ := hk 0 (by simp)
    simp only [Nat.add_zero, List.getD_cons_zero] at hv0 ha0 hh0
    rw [show (x :: t).length = t.length + 1 from rfl, List.range'_succ, bestLoop_cons,
      if_pos hv0, ih (s + 1) ?_, ha0, hh0]
    · rfl
    · intro k hk'
      have hs := hk (k + 1) (by simpa using Nat.succ_lt_succ hk')
      have e : s + (k + 1) = s + 1 + k := by omega
      rw [e] at hs
      simpa [List.getD_cons_succ] using hs

/-- At duration 1 every window is the single slot at its start index. -/
theorem windowCalc_one (hp : List (ℕ × ℚ)) (i : ℕ) (hi : i < hp.length) :
    windowCalc hp 1 false 0 i = ((hp.getD i (0, 0)).2, 1) := by
  have h0 : i + 0 < hp.length := by simpa using hi
  unfold windowCalc
  simp only [show (1 : ℤ).toNat = 1 from rfl, List.range_succ, List.range_zero,
    List.nil_append, List.foldl_cons, List.foldl_nil, if_pos h0]
  simp [hi]

theorem pyTrunc_one : pyTrunc 1 = 1 := by norm_num [pyTrunc]

theorem pyMod1_one : pyMod1 1 = 0 := by norm_num [pyMod1]

theorem hasFracB_one : hasFracB 1 = false := by simp [hasFracB, pyMod1_one]

theorem startCount_one (n : ℕ) : startCount n 1 = n := by
  simp [startCount, hasFracB_one, pyTrunc_one]

/-- `_find_cheapest_window` at duration 1 computes the earliest-win minimum
of the materialized `(hour, price)` sequence. -/
theorem findCheapestWindow_one (data : PriceData) (hours : List ℕ) (ut : Bool)
    (hne : hours ≠ []) (hlen : 1 ≤ (hours.length : ℚ)) :
    findCheapestWindow data hours 1 ut =
      match pairBest (hourPrices data hours ut) with
      | none => (none, none)
      | some c => (some c.1, some c.2) := by
  unfold findCheapestWindow
  rw [if_neg (by push_neg; exact ⟨hne, hlen⟩)]
  by_cases hhp : hourPrices data hours ut = []
  · rw [if_pos hhp, hhp]
    rfl
  · rw [if_neg hhp]
    have hbl : bestLoop (validAt (hourPrices data hours ut) 1)
        (avgAt (hourPrices data hours ut) 1) (startHourAt (hourPrices data hours ut))
        (List.range (startCount (hourPrices data hours ut).length 1)) =
        pairBest (hourPrices data hours ut) := by
      rw [startCount_one, List.range_eq_range']
      apply bestLoop_pairBest
      intro k hk
      simp only [Nat.zero_add]
      refine ⟨?_, ?_, rfl⟩
      · simp only [validAt, pyTrunc_one, hasFracB_one, pyMod1_one, windowCalc_one _ k hk]
        norm_num
      · simp only [avgAt, pyTrunc_one, hasFracB_one, pyMod1_one, windowCalc_one _ k hk]
        exact div_one _
    rw [hbl]

/-! ### Minimum / maximum and first-find helper lemmas -/

theorem pyMin_eq_none (l : List ℚ) : pyMin l = none ↔ l = [] := by
  cases l with
  | nil => simp [pyMin]
  | cons x t =>
    simp only [pyMin]
    cases pyMin t <;> simp

theorem pyMin_le (l : List ℚ) (q : ℚ) (h : pyMin l = some q) : ∀ x ∈ l, q ≤ x := by
  induction l generalizing q with
  | nil => simp [pyMin] at h
  | cons x t ih =>
    simp only [pyMin] at h
    cases hM : pyMin t with
    | none =>
      rw [hM] at h
      have ht : t = [] := (pyMin_eq_none t).mp hM
      subst ht
      simp only [Option.some.injEq] at h
      simp [← h]
    | some m =>
      rw [hM] at h
      simp only [Option.some.injEq] at h
      intro y hy
      rcases List.mem_cons.mp hy with rfl | hyt
      · rw [← h]; exact min_le_left _ _
      · exact le_trans (h ▸ min_le_right x m) (ih m hM y hyt)

theorem pyMin_mem (l : List ℚ) (q : ℚ) (h : pyMin l = some q) : q ∈ l := by
  induction l generalizing q with
  | nil => simp [pyMin] at h
  | cons x t ih =>
    simp only [pyMin] at h
    cases hM : pyMin t with
    | none => rw [hM] at h; simp at h; simp [h]
    | some m =>
      rw [hM] at h
      simp only [Option.some.injEq] at h
      subst h
      rcases min_choice x m with hc | hc
      · exact List.mem_cons.mpr (Or.inl hc)
      · refine List.mem_cons.mpr (Or.inr ?_)
        rw [hc]
        exact ih m hM

theorem pyMax_mem (l : List ℚ) (q : ℚ) (h : pyMax l = some q) : q ∈ l := by
  induction l generalizing q with
  | nil => simp [pyMax] at h
  | cons x t ih =>
    simp only [pyMax] at h
    cases hM : pyMax t with
    | none => rw [hM] at h; simp at h; simp [h]
    | some m =>
      rw [hM] at h
      simp only [Option.some.injEq] at h
      subst h
      rcases max_choice x m with hc | hc
      · exact List.mem_cons.mpr (Or.inl hc)
      · refine List.mem_cons.mpr (Or.inr ?_)
        rw [hc]
        exact ih m hM

theorem pairsOf_map_snd (f : ℕ → Option ℚ) (hours : List ℕ) :
    (pairsOf f hours).map Prod.snd = hours.filterMap f := by
  induction hours with
  | nil => rfl
  | cons h t ih =>
    cases hf : f h <;> simp [pairsOf, List.filterMap_cons, hf] <;>
      simpa [pairsOf] using ih

theorem pairBest_pyMin (hp : List (ℕ × ℚ)) (q : ℚ) (h : ℕ)
    (hres : pairBest hp = some (q, h)) : pyMin (hp.map Prod.snd) = some q := by
  induction hp generalizing q h with
  | nil => simp [pairBest] at hres
  | cons x t ih =>
    simp only [pairBest] at hres
    cases hM : pairBest t with
    | none =>
      rw [hM] at hres
      dsimp only at hres
      simp only [Option.some.injEq, Prod.mk.injEq] at hres
      have ht : t = [] := (pairBest_eq_none t).mp hM
      subst ht
      simp [pyMin, hres.1]
    | some c =>
      rw [hM] at hres
      dsimp only at hres
      by_cases hcx : c.1 < x.2
      · rw [if_pos hcx] at hres
        have hc : c = (q, h) := Option.some.inj hres
        subst hc
        simp only [List.map_cons, pyMin, ih q h hM]
        simp only [Option.some.injEq]
        exact min_eq_right (le_of_lt hcx)
      · rw [if_neg hcx] at hres
        simp only [Option.some.injEq, Prod.mk.injEq] at hres
        simp only [List.map_cons, pyMin, ih c.1 c.2 (by rw [hM])]
        simp only [Option.some.injEq]
        rw [← hres.1]
        exact min_eq_left (not_lt.mp hcx)

theorem pairBest_found (f : ℕ → Option ℚ) :
    ∀ (hours : List ℕ) (q : ℚ) (h : ℕ), pairBest (pairsOf f hours) = some (q, h) →
      hours.find? (fun x => decide (f x = some q)) = some h := by
  intro hours
  induction hours with
  | nil => intro q h hres; simp [pairsOf] at hres; simp [pairBest] at hres
  | cons hh t ih =>
    intro q h hres
    cases hf : f hh with
    | none =>
      rw [show pairsOf f (hh :: t) = pairsOf f t by simp [pairsOf, List.filterMap_cons, hf]]
        at hres
      rw [List.find?_cons_of_neg _ (by simp [hf])]
      exact ih q h hres
    | some p =>
      rw [show pairsOf f (hh :: t) = (hh, p) :: pairsOf f t by
        simp [pairsOf, List.filterMap_cons, hf]] at hres
      simp only [pairBest] at hres
      cases hM : pairBest (pairsOf f t) with
      | none =>
        rw [hM] at hres
        dsimp only at hres
        simp only [Option.some.injEq, Prod.mk.injEq] at hres
        rw [List.find?_cons_of_pos _ (by simp [hf, hres.1])]
        rw [hres.2]
      | some c =>
        rw [hM] at hres
        dsimp only at hres
        by_cases hcp : c.1 < p
        · rw [if_pos hcp] at hres
          have hc : c = (q, h) := Option.some.inj hres
          subst hc
          rw [List.find?_cons_of_neg _ (by simp [hf]; exact fun e => absurd e (ne_of_gt hcp))]
          exact ih q h hM
        · rw [if_neg hcp] at hres
          simp only [Option.some.injEq, Prod.mk.injEq] at hres
          rw [List.find?_cons_of_pos _ (by simp [hf, hres.1])]
          rw [hres.2]

theorem find?_range'_first (p : ℕ → Bool) :
    ∀ (n s x : ℕ), (List.range' s n).find? p = some x →
      s ≤ x ∧ x < s + n ∧ p x = true ∧ ∀ j, s ≤ j → j < x → p j = false := by
  intro n
  induction n with
  | zero => intro s x h; simp at h
  | succ n ih =>
    intro s x h
    rw [List.range'_succ] at h
    by_cases hp : p s = true
    · rw [List.find?_cons_of_pos _ hp] at h
      have hx : s = x := Option.some.inj h
      subst hx
      exact ⟨le_refl s, by omega, hp, fun j hj1 hj2 => absurd hj1 (by omega)⟩
    · rw [List.find?_cons_of_neg _ hp] at h
      obtain ⟨h1, h2, h3, h4⟩ := ih (s + 1) x h
      refine ⟨by omega, by omega, h3, ?_⟩
      intro j hj1 hj2
      rcases Nat.eq_or_lt_of_le hj1 with rfl | hj1'
      · simpa using hp
      · exact h4 j hj1' hj2

/-! ### Alignment of the period scans with the materialized sequence -/

theorem slotKey_false (h : ℕ) : slotKey false h = todayKey h := by simp [slotKey]

theorem slotKey_true_evening (h : ℕ) (hh : 6 ≤ h) : slotKey true h = todayKey h := by
  simp [slotKey, Nat.not_lt.mpr hh]

theorem slotKey_true_morning (h : ℕ) (hh : h < 6) : slotKey true h = tomorrowKey h := by
  simp [slotKey, hh]

theorem find?_congr_mem {α : Type} (l : List α) (p p' : α → Bool)
    (hpp : ∀ a ∈ l, p a = p' a) : l.find? p = l.find? p' := by
  induction l with
  | nil => rfl
  | cons a t ih =>
    have ha := hpp a (List.mem_cons_self a t)
    by_cases hpa : p a = true
    · rw [List.find?_cons_of_pos _ hpa, List.find?_cons_of_pos _ (ha ▸ hpa)]
    · rw [List.find?_cons_of_neg _ hpa, List.find?_cons_of_neg _ (by rw [← ha]; exact hpa)]
      exact ih fun a ha' => hpp a (List.mem_cons_of_mem _ ha')

theorem dayHours_filterMap (data : PriceData) :
    dayHours.filterMap (fun h => lookup data (todayKey h)) =
      dayHours.filterMap (fun h => lookup data (slotKey false h)) := by
  apply List.filterMap_congr
  intro h _
  rw [slotKey_false]

theorem nightHours_filterMap (data : PriceData) :
    (List.range' 18 6).filterMap (fun h => lookup data (todayKey h))
      ++ (List.range 6).filterMap (fun h => lookup data (tomorrowKey h)) =
      nightHours.filterMap (fun h => lookup data (slotKey true h)) := by
  unfold nightHours
  rw [List.filterMap_append]
  congr 1

/-- C2: for Day and Night, the cheapest-window search with duration 1
returns exactly the pair of the corresponding single-hour
lowest-price-with-hour lookup (same minimum, same earliest tie-broken
hour). -/
theorem c2_duration_one_matches_lowest (data : PriceData) (hdata : data ≠ []) :
    get_cheapest_duration_day data 1 = get_lowest_price_day_with_hour data ∧
    get_cheapest_duration_night data 1 = get_lowest_price_night_with_hour data := by
  constructor
  · rw [get_cheapest_duration_day, if_neg (by push_neg; exact ⟨hdata, by norm_num⟩),
      findCheapestWindow_one data dayHours false (by decide) (by norm_num [dayHours])]
    cases hPB : pairBest (hourPrices data dayHours false) with
    | none =>
      have hp0 : hourPrices data dayHours false = [] := (pairBest_eq_none _).mp hPB
      have hfm : dayHours.filterMap (fun h => lookup data (todayKey h)) = [] := by
        rw [dayHours_filterMap]
        have hmap := congrArg (List.map Prod.snd) hp0
        rw [show hourPrices data dayHours false =
          pairsOf (fun h => lookup data (slotKey false h)) dayHours from rfl,
          pairsOf_map_snd] at hmap
        simpa using hmap
      simp only [get_lowest_price_day_with_hour, get_lowest_price_day, if_neg hdata, hfm]
      rfl
    | some c =>
      have hmin : pyMin (dayHours.filterMap (fun h => lookup data (todayKey h))) = some c.1 := by
        rw [dayHours_filterMap, ← pairsOf_map_snd]
        exact pairBest_pyMin _ c.1 c.2 hPB
      have hfind : (List.range' 6 12).find?
          (fun h => decide (lookup data (todayKey h) = some c.1)) = some c.2 := by
        rw [show (List.range' 6 12) = dayHours from rfl,
          find?_congr_mem dayHours _
            (fun x => decide (lookup data (slotKey false x) = some c.1))
            (fun a _ => by simp [slotKey_false])]
        exact pairBest_found (fun h => lookup data (slotKey false h)) dayHours c.1 c.2 hPB
      simp only [get_lowest_price_day_with_hour, get_lowest_price_day, if_neg hdata, hmin,
        hfind]
  · rw [get_cheapest_duration_night, if_neg (by push_neg; exact ⟨hdata, by norm_num⟩),
      findCheapestWindow_one data nightHours true (by decide) (by norm_num [nightHours])]
    cases hPB : pairBest (hourPrices data nightHours true) with
    | none =>
      have hp0 : hourPrices data nightHours true = [] := (pairBest_eq_none _).mp hPB
      have hfm : (List.range' 18 6).filterMap (fun h => lookup data (todayKey h))
          ++ (List.range 6).filterMap (fun h => lookup data (tomorrowKey h)) = [] := by
        rw [nightHours_filterMap]
        have hmap := congrArg (List.map Prod.snd) hp0
        rw [show hourPrices data nightHours true =
          pairsOf (fun h => lookup data (slotKey true h)) nightHours from rfl,
          pairsOf_map_snd] at hmap
        simpa using hmap
      simp only [get_lowest_price_night_with_hour, get_lowest_price_night, if_neg hdata, hfm]
      rfl
    | some c =>
      have hmin : pyMin ((List.range' 18 6).filterMap (fun h => lookup data (todayKey h))
          ++ (List.range 6).filterMap (fun h => lookup data (tomorrowKey h))) = some c.1 := by
        rw [nightHours_filterMap, ← pairsOf_map_snd]
        exact pairBest_pyMin _ c.1 c.2 hPB
      have hfind : nightHours.find?
          (fun x => decide (lookup data (slotKey true x) = some c.1)) = some c.2 :=
        pairBest_found (fun h => lookup data (slotKey true h)) nightHours c.1 c.2 hPB
      rw [show nightHours = List.range' 18 6 ++ List.range 6 from rfl,
        List.find?_append] at hfind
      have hev : (List.range' 18 6).find?
          (fun x => decide (lookup data (slotKey true x) = some c.1)) =
          (List.range' 18 6).find?
          (fun h => decide (lookup data (todayKey h) = some c.1)) :=
        find?_congr_mem _ _ _ (fun a ha => by
          rw [List.mem_range'_1] at ha
          simp [slotKey_true_evening a (by omega)])
      have hmo : (List.range 6).find?
          (fun x => decide (lookup data (slotKey true x) = some c.1)) =
          (List.range 6).find?
          (fun h => decide (lookup data (tomorrowKey h) = some c.1)) :=
        find?_congr_mem _ _ _ (fun a ha => by
          rw [List.mem_range] at ha
          simp [slotKey_true_morning a ha])
      rw [hev, hmo] at hfind
      simp only [get_lowest_price_night_with_hour, get_lowest_price_night, if_neg hdata, hmin]
      cases hE : (List.range' 18 6).find?
          (fun h => decide (lookup data (todayKey h) = some c.1)) with
      | some h0 =>
        rw [hE] at hfind
        simp only [Option.or_some] at hfind
        simp [hE, ← hfind]
      | none =>
        rw [hE] at hfind
        simp only [Option.none_or] at hfind
        simp [hE, hfind]

/-- Witness for C2 at a concrete two-slot price map. -/
theorem c2_duration_one_matches_lowest_witness :
    get_cheapest_duration_day [("gpe_price_07", 2), ("gpe_price_20", 1)] 1 =
      get_lowest_price_day_with_hour [("gpe_price_07", 2), ("gpe_price_20", 1)] ∧
    get_cheapest_duration_night [("gpe_price_07", 2), ("gpe_price_20", 1)] 1 =
      get_lowest_price_night_with_hour [("gpe_price_07", 2), ("gpe_price_20", 1)] :=
  c2_duration_one_matches_lowest _ (by decide)

/-! ### Exact coverage and lower bound of every scanned window -/

theorem windowBase_hours (hp : List (ℕ × ℚ)) (i : ℕ) :
    ∀ (k : ℕ), i + k ≤ hp.length →
      ((List.range k).foldl
        (fun acc j =>
          if i + j < hp.length then (acc.1 + (hp.getD (i + j) (0, 0)).2, acc.2 + 1) else acc)
        ((0 : ℚ), (0 : ℚ))).2 = k := by
  intro k
  induction k with
  | zero => intro _; simp
  | succ k ih =>
    intro hik
    have hlt : i + k < hp.length := by omega
    rw [List.range_succ, List.foldl_append, List.foldl_cons, List.foldl_nil, if_pos hlt]
    simp only [ih (by omega)]
    push_cast
    ring

theorem windowBase_sum (hp : List (ℕ × ℚ)) (m : ℚ) (hm : ∀ x ∈ hp, m ≤ x.2) (i : ℕ) :
    ∀ (k : ℕ), i + k ≤ hp.length →
      m * k ≤ ((List.range k).foldl
        (fun acc j =>
          if i + j < hp.length then (acc.1 + (hp.getD (i + j) (0, 0)).2, acc.2 + 1) else acc)
        ((0 : ℚ), (0 : ℚ))).1 := by
  intro k
  induction k with
  | zero => intro _; simp
  | succ k ih =>
    intro hik
    have hlt : i + k < hp.length := by omega
    rw [List.range_succ, List.foldl_append, List.foldl_cons, List.foldl_nil, if_pos hlt]
    have hmem : hp.getD (i + k) (0, 0) ∈ hp := by
      rw [List.getD_eq_getElem hp (0, 0) hlt]
      exact List.getElem_mem hlt
    have hmp : m ≤ (hp.getD (i + k) (0, 0)).2 := hm _ hmem
    have hik' := ih (by omega)
    simp only
    push_cast
    nlinarith [hik']

theorem getD_mem (hp : List (ℕ × ℚ)) (j : ℕ) (hj : j < hp.length) :
    hp.getD j (0, 0) ∈ hp := by
  rw [List.getD_eq_getElem hp (0, 0) hj]
  exact List.getElem_mem hj

/-- For a positive duration, every scanned placement covers exactly the
requested duration, and its price mass is bounded below by any common lower
bound of the slot prices, scaled by the duration. -/
theorem windowCalc_exact (hp : List (ℕ × ℚ)) (d : ℚ) (hd : 0 < d) (i : ℕ)
    (hi : i < startCount hp.length d) :
    (windowCalc hp (pyTrunc d) (hasFracB d) (pyMod1 d) i).2 = d ∧
    ∀ m, (∀ x ∈ hp, m ≤ x.2) →
      m * d ≤ (windowCalc hp (pyTrunc d) (hasFracB d) (pyMod1 d) i).1 := by
  have htr : pyTrunc d = ⌊d⌋ := if_pos (le_of_lt hd)
  have hfl0 : 0 ≤ ⌊d⌋ := Int.floor_nonneg.mpr (le_of_lt hd)
  have hfle : (⌊d⌋ : ℚ) ≤ d := Int.floor_le d
  by_cases hf : hasFracB d = true
  · have hcount : startCount hp.length d = ((hp.length : ℤ) - ⌊d⌋).toNat := by
      simp [startCount, hf, htr]
    rw [hcount] at hi
    have hik : (i : ℤ) + ⌊d⌋ < (hp.length : ℤ) := by omega
    have hikN : i + (⌊d⌋).toNat ≤ hp.length := by omega
    have hidx : ((i : ℤ) + ⌊d⌋).toNat = i + (⌊d⌋).toNat := by omega
    have hidxlt : i + (⌊d⌋).toNat < hp.length := by omega
    have hcond : (hasFracB d && decide ((i : ℤ) + pyTrunc d < (hp.length : ℤ))) = true := by
      rw [htr, hf]
      simpa using hik
    have htn : (((⌊d⌋).toNat : ℚ)) = (⌊d⌋ : ℚ) := by
      exact_mod_cast Int.toNat_of_nonneg hfl0
    have hfrac0 : 0 ≤ pyMod1 d := by
      unfold pyMod1
      linarith
    unfold windowCalc
    rw [hcond, if_pos rfl, htr]
    constructor
    · rw [windowBase_hours hp i (⌊d⌋).toNat hikN]
      unfold pyMod1
      rw [htn]
      ring
    · intro m hm
      have hsum := windowBase_sum hp m hm i (⌊d⌋).toNat hikN
      have hmem : hp.getD ((i : ℤ) + ⌊d⌋).toNat (0, 0) ∈ hp := by
        rw [hidx]
        exact getD_mem hp _ hidxlt
      have hmp : m ≤ (hp.getD ((i : ℤ) + ⌊d⌋).toNat (0, 0)).2 := hm _ hmem
      have hmd : m * d = m * (⌊d⌋).toNat + m * pyMod1 d := by
        unfold pyMod1
        rw [htn]
        ring
      rw [hmd]
      have hterm : m * pyMod1 d ≤ (hp.getD ((i : ℤ) + ⌊d⌋).toNat (0, 0)).2 * pyMod1 d :=
        mul_le_mul_of_nonneg_right hmp hfrac0
      exact add_le_add hsum hterm
  · have hfB : hasFracB d = false := by simpa using hf
    have hmod0 : pyMod1 d = 0 := by
      by_contra hne
      simp [hasFracB, hne] at hfB
    have hdfl : d = (⌊d⌋ : ℚ) := by
      unfold pyMod1 at hmod0
      linarith
    have hcount : startCount hp.length d = ((hp.length : ℤ) - ⌊d⌋ + 1).toNat := by
      simp [startCount, hfB, htr]
    rw [hcount] at hi
    have hikN : i + (⌊d⌋).toNat ≤ hp.length := by omega
    have htn : (((⌊d⌋).toNat : ℚ)) = (⌊d⌋ : ℚ) := by
      exact_mod_cast Int.toNat_of_nonneg hfl0
    have hcond : (hasFracB d && decide ((i : ℤ) + pyTrunc d < (hp.length : ℤ))) = false := by
      rw [hfB]
      simp
    unfold windowCalc
    rw [hcond]
    simp only [Bool.false_eq_true, if_false]
    rw [htr]
    constructor
    · rw [windowBase_hours hp i (⌊d⌋).toNat hikN]
      rw [htn, ← hdfl]
    · intro m hm
      have hsum := windowBase_sum hp m hm i (⌊d⌋).toNat hikN
      calc m * d = m * (((⌊d⌋).toNat : ℚ)) := by rw [htn, ← hdfl]
        _ ≤ _ := hsum

/-- Extraction of the loop invariants out of a successful window search:
the returned pair comes from a scanned, coverage-valid start index of
minimal average, tie-broken to the earliest scanned index. -/
theorem findCheapestWindow_some (data : PriceData) (hours : List ℕ) (d : ℚ) (ut : Bool)
    (a : ℚ) (h : ℕ)
    (hres : findCheapestWindow data hours d ut = (some a, some h)) :
    ∃ i, i < startCount (hourPrices data hours ut).length d ∧
      validAt (hourPrices data hours ut) d i = true ∧
      avgAt (hourPrices data hours ut) d i = a ∧
      startHourAt (hourPrices data hours ut) i = h ∧
      (∀ j, j < i → validAt (hourPrices data hours ut) d j = true →
        a < avgAt (hourPrices data hours ut) d j) ∧
      (∀ j, j < startCount (hourPrices data hours ut).length d →
        validAt (hourPrices data hours ut) d j = true →
        a ≤ avgAt (hourPrices data hours ut) d j) := by
  simp only [findCheapestWindow] at hres
  split_ifs at hres with h1 h2
  · exact absurd hres (by simp)
  · exact absurd hres (by simp)
  · cases hbl : bestLoop (validAt (hourPrices data hours ut) d)
        (avgAt (hourPrices data hours ut) d) (startHourAt (hourPrices data hours ut))
        (List.range (startCount (hourPrices data hours ut).length d)) with
    | none => rw [hbl] at hres; exact absurd hres (by simp)
    | some b =>
      rw [hbl] at hres
      dsimp only at hres
      have hb : b = (a, h) := by
        have h1 := congrArg Prod.fst hres
        have h2 := congrArg Prod.snd hres
        simp only at h1 h2
        exact Prod.ext (Option.some.inj h1) (Option.some.inj h2)
      subst hb
      obtain ⟨i, hi, hv, ha, hh, hfirst, hmin⟩ :=
        bestLoop_range_spec _ _ _ _ _ _ hbl
      exact ⟨i, hi, hv, ha, hh, hfirst, hmin⟩

/-- C3: a returned average price of the Day or Night cheapest-window
search is at least the minimum single-hour price among the materialized
slots of the period. -/
theorem c3_average_ge_min_slot (data : PriceData) (d : ℚ) (a : ℚ) (h : ℕ) :
    (get_cheapest_duration_day data d = (some a, some h) →
      ∀ m, pyMin ((hourPrices data dayHours false).map Prod.snd) = some m → m ≤ a) ∧
    (get_cheapest_duration_night data d = (some a, some h) →
      ∀ m, pyMin ((hourPrices data nightHours true).map Prod.snd) = some m → m ≤ a) := by
  constructor
  · intro hres m hmin
    simp only [get_cheapest_duration_day] at hres
    split_ifs at hres with hg
    · exact absurd hres (by simp)
    · push_neg at hg
      have hd : 0 < d := hg.2
      obtain ⟨i, hi, _, ha, _, _, _⟩ := findCheapestWindow_some data dayHours d false a h hres
      have hbound : ∀ x ∈ hourPrices data dayHours false, m ≤ x.2 := fun x hx =>
        pyMin_le _ m hmin x.2 (List.mem_map_of_mem _ hx)
      obtain ⟨_, hsum⟩ := windowCalc_exact (hourPrices data dayHours false) d hd i hi
      have := hsum m hbound
      rw [← ha]
      unfold avgAt
      rw [le_div_iff₀ hd]
      exact this
  · intro hres m hmin
    simp only [get_cheapest_duration_night] at hres
    split_ifs at hres with hg
    · exact absurd hres (by simp)
    · push_neg at hg
      have hd : 0 < d := hg.2
      obtain ⟨i, hi, _, ha, _, _, _⟩ := findCheapestWindow_some data nightHours d true a h hres
      have hbound : ∀ x ∈ hourPrices data nightHours true, m ≤ x.2 := fun x hx =>
        pyMin_le _ m hmin x.2 (List.mem_map_of_mem _ hx)
      obtain ⟨_, hsum⟩ := windowCalc_exact (hourPrices data nightHours true) d hd i hi
      have := hsum m hbound
      rw [← ha]
      unfold avgAt
      rw [le_div_iff₀ hd]
      exact this

/-- Witness for C3 at a concrete map and duration. -/
theorem c3_average_ge_min_slot_witness :
    (∀ m, pyMin ((hourPrices [("gpe_price_07", 2), ("gpe_price_08", 4)] dayHours false).map
        Prod.snd) = some m → m ≤ 3) ∧
    (∀ m, pyMin ((hourPrices [("gpe_price_20", 5), ("gpe_price_21", 7)] nightHours true).map
        Prod.snd) = some m → m ≤ 6) :=
  ⟨(c3_average_ge_min_slot [("gpe_price_07", 2), ("gpe_price_08", 4)] 2 3 7).1
      (by with_unfolding_all decide),
    (c3_average_ge_min_slot [("gpe_price_20", 5), ("gpe_price_21", 7)] 2 6 20).2
      (by with_unfolding_all decide)⟩

/-! ### Ceiling facts for the duration -/

theorem ceil_of_frac_eq (d : ℚ) (h : pyMod1 d = 0) : ⌈d⌉ = ⌊d⌋ := by
  have hdfl : d = (⌊d⌋ : ℚ) := by unfold pyMod1 at h; linarith
  rw [hdfl]
  simp

theorem ceil_of_frac_ne (d : ℚ) (h : pyMod1 d ≠ 0) : ⌈d⌉ = ⌊d⌋ + 1 := by
  have hlt : (⌊d⌋ : ℚ) < d := by
    rcases lt_or_eq_of_le (Int.floor_le d) with hc | hc
    · exact hc
    · exact absurd (by unfold pyMod1; linarith) h
  rw [Int.ceil_eq_iff]
  constructor
  · push_cast
    linarith
  · push_cast
    linarith [Int.lt_floor_add_one d]

/-- C4: Scenario C of the spec — night data wrapping midnight with
`price_23 = 0.20`, `price_00_tomorrow = 0.14`, `price_01_tomorrow = 0.13`,
duration 2.0: the search returns average `0.135 = 27/200` at start hour 0. -/
theorem c4_scenario_night_wrap :
    get_cheapest_duration_night
      [("gpe_price_23", 1/5), ("gpe_price_00_tomorrow", 7/50), ("gpe_price_01_tomorrow", 13/100)]
      2 = (some (27/200), some 0) := by with_unfolding_all decide

/-- C5: the recorded best of the sliding-window loop is replaced only on a
strict improvement of the average, so the returned window is the earliest
scanned placement achieving the minimum: every earlier valid placement has
strictly larger average, and no valid placement beats it. -/
theorem c5_first_window_wins (data : PriceData) (hours : List ℕ) (d : ℚ) (ut : Bool)
    (a : ℚ) (h : ℕ)
    (hres : findCheapestWindow data hours d ut = (some a, some h)) :
    ∃ i, i < startCount (hourPrices data hours ut).length d ∧
      validAt (hourPrices data hours ut) d i = true ∧
      avgAt (hourPrices data hours ut) d i = a ∧
      startHourAt (hourPrices data hours ut) i = h ∧
      (∀ j, j < i → validAt (hourPrices data hours ut) d j = true →
        a < avgAt (hourPrices data hours ut) d j) ∧
      (∀ j, j < startCount (hourPrices data hours ut).length d →
        validAt (hourPrices data hours ut) d j = true →
        a ≤ avgAt (hourPrices data hours ut) d j) :=
  findCheapestWindow_some data hours d ut a h hres

/-- Witness for C5: a two-slot tie at identical prices; the returned start
hour is the earlier scanned hour 18. -/
theorem c5_first_window_wins_witness :
    ∃ i, i < startCount (hourPrices [("gpe_price_18", 1), ("gpe_price_19", 1)] nightHours
        true).length 1 ∧
      validAt (hourPrices [("gpe_price_18", 1), ("gpe_price_19", 1)] nightHours true) 1 i
        = true ∧
      avgAt (hourPrices [("gpe_price_18", 1), ("gpe_price_19", 1)] nightHours true) 1 i = 1 ∧
      startHourAt (hourPrices [("gpe_price_18", 1), ("gpe_price_19", 1)] nightHours true) i
        = 18 ∧
      (∀ j, j < i →
        validAt (hourPrices [("gpe_price_18", 1), ("gpe_price_19", 1)] nightHours true) 1 j
          = true →
        1 < avgAt (hourPrices [("gpe_price_18", 1), ("gpe_price_19", 1)] nightHours true) 1 j) ∧
      (∀ j, j < startCount (hourPrices [("gpe_price_18", 1), ("gpe_price_19", 1)] nightHours
          true).length 1 →
        validAt (hourPrices [("gpe_price_18", 1), ("gpe_price_19", 1)] nightHours true) 1 j
          = true →
        1 ≤ avgAt (hourPrices [("gpe_price_18", 1), ("gpe_price_19", 1)] nightHours true) 1 j) :=
  c5_first_window_wins [("gpe_price_18", 1), ("gpe_price_19", 1)] nightHours 1 true 1 18
    (by with_unfolding_all decide)

/-- C7: when the materialized gap-skipped sequence has fewer entries than
`ceil(duration)`, the search reports the absent pair instead of raising. -/
theorem c7_insufficient_slots_absent (data : PriceData) (hours : List ℕ) (d : ℚ) (ut : Bool)
    (hlen : ((hourPrices data hours ut).length : ℤ) < ⌈d⌉) :
    findCheapestWindow data hours d ut = (none, none) := by
  simp only [findCheapestWindow]
  split_ifs with h1 h2
  · rfl
  · rfl
  · have hn1 : 1 ≤ (hourPrices data hours ut).length :=
      List.length_pos.mpr h2
    have hd : 0 < d := by
      by_contra hd0
      push_neg at hd0
      have hc0 : ⌈d⌉ ≤ 0 := Int.ceil_le.mpr (by exact_mod_cast hd0)
      omega
    have htr : pyTrunc d = ⌊d⌋ := if_pos (le_of_lt hd)
    have hsc : startCount (hourPrices data hours ut).length d = 0 := by
      by_cases hf : hasFracB d = true
      · have hne : pyMod1 d ≠ 0 := by simpa [hasFracB] using hf
        have hceil := ceil_of_frac_ne d hne
        simp only [startCount, hf, htr, if_pos]
        omega
      · have hfB : hasFracB d = false := by simpa using hf
        have hne : pyMod1 d = 0 := by
          by_contra hcon
          simp [hasFracB, hcon] at hfB
        have hceil := ceil_of_frac_eq d hne
        simp only [startCount, hfB, htr]
        omega
    rw [hsc]
    rfl

/-- Witness for C7: three day slots cannot host a four-hour window. -/
theorem c7_insufficient_slots_absent_witness :
    ((hourPrices [("gpe_price_06", 1), ("gpe_price_07", 1), ("gpe_price_08", 1)] dayHours
        false).length : ℤ) < ⌈(4 : ℚ)⌉ ∧
    findCheapestWindow [("gpe_price_06", 1), ("gpe_price_07", 1), ("gpe_price_08", 1)]
      dayHours 4 false = (none, none) :=
  ⟨by with_unfolding_all decide,
    c7_insufficient_slots_absent _ dayHours 4 false (by with_unfolding_all decide)⟩

/-- C8: a non-positive duration makes both period-specialized entry points
return the absent pair, exactly as in the no-data case. -/
theorem c8_nonpositive_duration_absent (data : PriceData) (d : ℚ) (hd : d ≤ 0) :
    get_cheapest_duration_day data d = (none, none) ∧
    get_cheapest_duration_night data d = (none, none) := by
  constructor <;> simp [get_cheapest_duration_day, get_cheapest_duration_night, hd]

/-- Witness for C8 at duration `-1` on a nonempty map. -/
theorem c8_nonpositive_duration_absent_witness :
    get_cheapest_duration_day [("gpe_price_07", 2)] (-1) = (none, none) ∧
    get_cheapest_duration_night [("gpe_price_07", 2)] (-1) = (none, none) :=
  c8_nonpositive_duration_absent [("gpe_price_07", 2)] (-1) (by norm_num)

/-- C9: on the empty price map every query operation returns an absent
result (`none` or the pair `(none, none)`), for any hour and any duration. -/
theorem c9_empty_data_absent (hour : ℕ) (d : ℚ) :
    get_highest_price_today [] = none ∧
    get_lowest_price_day [] = none ∧
    get_lowest_price_night [] = none ∧
    get_current_price [] hour = none ∧
    get_highest_price_today_with_hour [] = (none, none) ∧
    get_lowest_price_day_with_hour [] = (none, none) ∧
    get_lowest_price_night_with_hour [] = (none, none) ∧
    get_cheapest_duration_day [] d = (none, none) ∧
    get_cheapest_duration_night [] d = (none, none) := by
  refine ⟨rfl, rfl, rfl, rfl, rfl, rfl, rfl, ?_, ?_⟩ <;>
    simp [get_cheapest_duration_day, get_cheapest_duration_night]

/-- C6: when several hours carry the identical extreme value, each
with-hour lookup returns the earliest hour of its period's chronological
scan order; for Night, today's hours 18–23 are scanned before tomorrow's
hours 0–5. -/
theorem c6_earliest_hour_tie_break (data : PriceData) (p : ℚ) (h : ℕ) :
    (get_highest_price_today_with_hour data = (some p, some h) →
      h < 24 ∧ lookup data (todayKey h) = some p ∧
      ∀ h', h' < h → lookup data (todayKey h') ≠ some p) ∧
    (get_lowest_price_day_with_hour data = (some p, some h) →
      6 ≤ h ∧ h < 18 ∧ lookup data (todayKey h) = some p ∧
      ∀ h', 6 ≤ h' → h' < h → lookup data (todayKey h') ≠ some p) ∧
    (get_lowest_price_night_with_hour data = (some p, some h) →
      (18 ≤ h ∧ h < 24 ∧ lookup data (todayKey h) = some p ∧
        ∀ h', 18 ≤ h' → h' < h → lookup data (todayKey h') ≠ some p) ∨
      (h < 6 ∧ lookup data (tomorrowKey h) = some p ∧
        (∀ h', 18 ≤ h' → h' < 24 → lookup data (todayKey h') ≠ some p) ∧
        ∀ h', h' < h → lookup data (tomorrowKey h') ≠ some p)) := by
  refine ⟨?_, ?_, ?_⟩
  · intro hres
    unfold get_highest_price_today_with_hour at hres
    cases hmax : get_highest_price_today data with
    | none => rw [hmax] at hres; exact absurd hres (by simp)
    | some hp =>
      rw [hmax] at hres
      dsimp only at hres
      by_cases hdata : data = []
      · rw [if_pos hdata] at hres; exact absurd hres (by simp)
      · rw [if_neg hdata] at hres
        cases hfind : (List.range 24).find?
            (fun hh => decide (lookup data (todayKey hh) = some hp)) with
        | none =>
          rw [hfind] at hres
          exact absurd (congrArg Prod.snd hres) (by simp)
        | some h0 =>
          rw [hfind] at hres
          dsimp only at hres
          have hp_eq : hp = p := Option.some.inj (congrArg Prod.fst hres)
          have h0_eq : h0 = h := Option.some.inj (congrArg Prod.snd hres)
          subst hp_eq h0_eq
          rw [List.range_eq_range'] at hfind
          obtain ⟨_, hlt, hpred, hbefore⟩ := find?_range'_first _ 24 0 h0 hfind
          exact ⟨by omega, by simpa using hpred,
            fun h' hh' => by simpa using hbefore h' (by omega) hh'⟩
  · intro hres
    unfold get_lowest_price_day_with_hour at hres
    cases hmin : get_lowest_price_day data with
    | none => rw [hmin] at hres; exact absurd hres (by simp)
    | some lp =>
      rw [hmin] at hres
      dsimp only at hres
      by_cases hdata : data = []
      · rw [if_pos hdata] at hres; exact absurd hres (by simp)
      · rw [if_neg hdata] at hres
        cases hfind : (List.range' 6 12).find?
            (fun hh => decide (lookup data (todayKey hh) = some lp)) with
        | none =>
          rw [hfind] at hres
          exact absurd (congrArg Prod.snd hres) (by simp)
        | some h0 =>
          rw [hfind] at hres
          dsimp only at hres
          have hp_eq : lp = p := Option.some.inj (congrArg Prod.fst hres)
          have h0_eq : h0 = h := Option.some.inj (congrArg Prod.snd hres)
          subst hp_eq h0_eq
          obtain ⟨hge, hlt, hpred, hbefore⟩ := find?_range'_first _ 12 6 h0 hfind
          exact ⟨hge, by omega, by simpa using hpred,
            fun h' hge' hh' => by simpa using hbefore h' hge' hh'⟩
  · intro hres
    unfold get_lowest_price_night_with_hour at hres
    cases hmin : get_lowest_price_night data with
    | none => rw [hmin] at hres; exact absurd hres (by simp)
    | some lp =>
      rw [hmin] at hres
      dsimp only at hres
      by_cases hdata : data = []
      · rw [if_pos hdata] at hres; exact absurd hres (by simp)
      · rw [if_neg hdata] at hres
        cases hfindE : (List.range' 18 6).find?
            (fun hh => decide (lookup data (todayKey hh) = some lp)) with
        | some h0 =>
          rw [hfindE] at hres
          dsimp only at hres
          have hp_eq : lp = p := Option.some.inj (congrArg Prod.fst hres)
          have h0_eq : h0 = h := Option.some.inj (congrArg Prod.snd hres)
          subst hp_eq h0_eq
          obtain ⟨hge, hlt, hpred, hbefore⟩ := find?_range'_first _ 6 18 h0 hfindE
          exact Or.inl ⟨hge, by omega, by simpa using hpred,
            fun h' hge' hh' => by simpa using hbefore h' hge' hh'⟩
        | none =>
          rw [hfindE] at hres
          cases hfindM : (List.range 6).find?
              (fun hh => decide (lookup data (tomorrowKey hh) = some lp)) with
          | none =>
            rw [hfindM] at hres
            exact absurd (congrArg Prod.snd hres) (by simp)
          | some h0 =>
            rw [hfindM] at hres
            dsimp only at hres
            have hp_eq : lp = p := Option.some.inj (congrArg Prod.fst hres)
            have h0_eq : h0 = h := Option.some.inj (congrArg Prod.snd hres)
            subst hp_eq h0_eq
            rw [List.range_eq_range'] at hfindM
            obtain ⟨_, hlt, hpred, hbefore⟩ := find?_range'_first _ 6 0 h0 hfindM
            have hEnone := List.find?_eq_none.mp hfindE
            refine Or.inr ⟨by omega, by simpa using hpred, ?_, ?_⟩
            · intro h' hge' hlt'
              have := hEnone h' (by rw [List.mem_range'_1]; omega)
              simpa using this
            · intro h' hh'
              simpa using hbefore h' (by omega) hh'

/-- Witness for C6: highest today and lowest day both return hour 7, the
lowest night returns the evening hour 20. -/
theorem c6_earliest_hour_tie_break_witness :
    (7 < 24 ∧ lookup [("gpe_price_07", 2), ("gpe_price_20", 1)] (todayKey 7) = some 2 ∧
      ∀ h', h' < 7 →
        lookup [("gpe_price_07", 2), ("gpe_price_20", 1)] (todayKey h') ≠ some 2) ∧
    (6 ≤ 7 ∧ 7 < 18 ∧ lookup [("gpe_price_07", 2), ("gpe_price_20", 1)] (todayKey 7) = some 2 ∧
      ∀ h', 6 ≤ h' → h' < 7 →
        lookup [("gpe_price_07", 2), ("gpe_price_20", 1)] (todayKey h') ≠ some 2) ∧
    ((18 ≤ 20 ∧ 20 < 24 ∧
        lookup [("gpe_price_07", 2), ("gpe_price_20", 1)] (todayKey 20) = some 1 ∧
        ∀ h', 18 ≤ h' → h' < 20 →
          lookup [("gpe_price_07", 2), ("gpe_price_20", 1)] (todayKey h') ≠ some 1) ∨
      (20 < 6 ∧ lookup [("gpe_price_07", 2), ("gpe_price_20", 1)] (tomorrowKey 20) = some 1 ∧
        (∀ h', 18 ≤ h' → h' < 24 →
          lookup [("gpe_price_07", 2), ("gpe_price_20", 1)] (todayKey h') ≠ some 1) ∧
        ∀ h', h' < 20 →
          lookup [("gpe_price_07", 2), ("gpe_price_20", 1)] (tomorrowKey h') ≠ some 1)) :=
  ⟨(c6_earliest_hour_tie_break [("gpe_price_07", 2), ("gpe_price_20", 1)] 2 7).1
      (by with_unfolding_all decide),
    (c6_earliest_hour_tie_break [("gpe_price_07", 2), ("gpe_price_20", 1)] 2 7).2.1
      (by with_unfolding_all decide),
    (c6_earliest_hour_tie_break [("gpe_price_07", 2), ("gpe_price_20", 1)] 1 20).2.2
      (by with_unfolding_all decide)⟩

/-! ### Well-formed key shapes and paired-query consistency -/

/-- All keys have the canonical shape `gpe_price_HH` / `gpe_price_HH_tomorrow`
with a zero-padded hour 0–23, and keys are unique (a Python dict invariant). -/
def WellFormedKeys (data : PriceData) : Prop :=
  (∀ kv ∈ data, ∃ hh, hh < 24 ∧ (kv.1 = todayKey hh ∨ kv.1 = tomorrowKey hh)) ∧
  (data.map Prod.fst).Nodup

theorem todayKey_starts (hh : ℕ) (h : hh < 24) :
    strStarts "gpe_price_" (todayKey hh) = true := by
  revert h
  revert hh
  decide

theorem todayKey_not_ends (hh : ℕ) (h : hh < 24) :
    strEnds "_tomorrow" (todayKey hh) = false := by
  revert h
  revert hh
  decide

theorem tomorrowKey_ends (hh : ℕ) (h : hh < 24) :
    strEnds "_tomorrow" (tomorrowKey hh) = true := by
  revert h
  revert hh
  decide

/-- With unique keys, looking up the key of a stored entry returns its
stored value. -/
theorem lookup_of_mem (data : PriceData) (kv : String × ℚ) (hmem : kv ∈ data)
    (hnd : (data.map Prod.fst).Nodup) : lookup data kv.1 = some kv.2 := by
  induction data with
  | nil => simp at hmem
  | cons x t ih =>
    rcases List.mem_cons.mp hmem with rfl | hmt
    · unfold lookup
      rw [List.find?_cons_of_pos _ (by simp)]
      rfl
    · have hnd2 : (x.1 :: t.map Prod.fst).Nodup := by
        rw [List.map_cons] at hnd
        exact hnd
      obtain ⟨hnotin, hnd'⟩ := List.nodup_cons.mp hnd2
      have hx : x.1 ≠ kv.1 := fun he => hnotin (he ▸ List.mem_map_of_mem Prod.fst hmt)
      unfold lookup
      rw [List.find?_cons_of_neg _ (by simpa using hx)]
      exact ih hmt hnd'

theorem pairsOf_mem (f : ℕ → Option ℚ) (hours : List ℕ) (x : ℕ × ℚ)
    (hx : x ∈ pairsOf f hours) : x.1 ∈ hours ∧ f x.1 = some x.2 := by
  unfold pairsOf at hx
  obtain ⟨a, ha, hfa⟩ := List.mem_filterMap.mp hx
  cases hf : f a with
  | none => rw [hf] at hfa; simp at hfa
  | some p =>
    rw [hf] at hfa
    simp only [Option.map_some', Option.some.injEq] at hfa
    subst hfa
    exact ⟨ha, hf⟩

theorem hourPrices_mem (data : PriceData) (hours : List ℕ) (ut : Bool) (x : ℕ × ℚ)
    (hx : x ∈ hourPrices data hours ut) :
    x.1 ∈ hours ∧ lookup data (slotKey ut x.1) = some x.2 :=
  pairsOf_mem _ hours x hx

/-- For a positive duration no scanned start index exceeds the sequence
length. -/
theorem startCount_le (n : ℕ) (d : ℚ) (hd : 0 < d) : startCount n d ≤ n := by
  have htr : pyTrunc d = ⌊d⌋ := if_pos (le_of_lt hd)
  have hfl0 : 0 ≤ ⌊d⌋ := Int.floor_nonneg.mpr (le_of_lt hd)
  by_cases hf : hasFracB d = true
  · simp only [startCount, hf, htr, if_pos]
    omega
  · have hfB : hasFracB d = false := by simpa using hf
    have hne : pyMod1 d = 0 := by
      by_contra hcon
      simp [hasFracB, hcon] at hfB
    have hdfl : d = (⌊d⌋ : ℚ) := by unfold pyMod1 at hne; linarith
    have h1 : 1 ≤ ⌊d⌋ := by
      by_contra hlt
      push_neg at hlt
      have : (⌊d⌋ : ℚ) ≤ 0 := by exact_mod_cast Int.lt_add_one_iff.mp (by omega)
      linarith
    simp only [startCount, hfB, htr]
    omega

/-- The window search structurally returns either a fully absent or a fully
present pair. -/
theorem findCheapestWindow_cases (data : PriceData) (hours : List ℕ) (d : ℚ) (ut : Bool) :
    findCheapestWindow data hours d ut = (none, none) ∨
    ∃ a h, findCheapestWindow data hours d ut = (some a, some h) := by
  simp only [findCheapestWindow]
  split_ifs
  · left; rfl
  · left; rfl
  · cases hbl : bestLoop (validAt (hourPrices data hours ut) d)
        (avgAt (hourPrices data hours ut) d) (startHourAt (hourPrices data hours ut))
        (List.range (startCount (hourPrices data hours ut).length d)) with
    | none => left; rfl
    | some b => right; exact ⟨b.1, b.2, rfl⟩

theorem cheapest_day_cases (data : PriceData) (d : ℚ) :
    get_cheapest_duration_day data d = (none, none) ∨
    ∃ a h, get_cheapest_duration_day data d = (some a, some h) := by
  simp only [get_cheapest_duration_day]
  split_ifs
  · left; rfl
  · exact findCheapestWindow_cases data dayHours d false

theorem cheapest_night_cases (data : PriceData) (d : ℚ) :
    get_cheapest_duration_night data d = (none, none) ∨
    ∃ a h, get_cheapest_duration_night data d = (some a, some h) := by
  simp only [get_cheapest_duration_night]
  split_ifs
  · left; rfl
  · exact findCheapestWindow_cases data nightHours d true

/-- C10: with well-formed canonical keys, every paired query returns either
a fully absent pair or a fully present pair whose hour lies in the
operation's period and whose price key is present in the map; a half-absent
pair is never returned. -/
theorem c10_pair_queries_consistent (data : PriceData) (d : ℚ) (hW : WellFormedKeys data) :
    (get_highest_price_today_with_hour data = (none, none) ∨
      ∃ pv hv, get_highest_price_today_with_hour data = (some pv, some hv) ∧ hv < 24 ∧
        lookup data (todayKey hv) = some pv) ∧
    (get_lowest_price_day_with_hour data = (none, none) ∨
      ∃ pv hv, get_lowest_price_day_with_hour data = (some pv, some hv) ∧
        6 ≤ hv ∧ hv < 18 ∧ lookup data (todayKey hv) = some pv) ∧
    (get_lowest_price_night_with_hour data = (none, none) ∨
      ∃ pv hv, get_lowest_price_night_with_hour data = (some pv, some hv) ∧
        ((18 ≤ hv ∧ hv < 24 ∧ lookup data (todayKey hv) = some pv) ∨
          (hv < 6 ∧ lookup data (tomorrowKey hv) = some pv))) ∧
    (get_cheapest_duration_day data d = (none, none) ∨
      ∃ pv hv, get_cheapest_duration_day data d = (some pv, some hv) ∧
        hv ∈ dayHours ∧ lookup data (todayKey hv) ≠ none) ∧
    (get_cheapest_duration_night data d = (none, none) ∨
      ∃ pv hv, get_cheapest_duration_night data d = (some pv, some hv) ∧
        hv ∈ nightHours ∧ lookup data (slotKey true hv) ≠ none) := by
  refine ⟨?_, ?_, ?_, ?_, ?_⟩
  · cases hmax : get_highest_price_today data with
    | none => left; simp [get_highest_price_today_with_hour, hmax]
    | some m =>
      right
      have hdata : data ≠ [] := by
        intro h0
        rw [h0] at hmax
        exact absurd hmax (by simp [get_highest_price_today])
      have hm_mem : m ∈ todayValues data := by
        unfold get_highest_price_today at hmax
        rw [if_neg hdata] at hmax
        exact pyMax_mem _ m hmax
      obtain ⟨kv, hkv, hpred⟩ := List.mem_filterMap.mp hm_mem
      have hcond : (strStarts "gpe_price_" kv.1 && !(strEnds "_tomorrow" kv.1)) = true ∧
          kv.2 = m := by
        by_cases hc : (strStarts "gpe_price_" kv.1 && !(strEnds "_tomorrow" kv.1)) = true
        · rw [if_pos hc] at hpred
          exact ⟨hc, Option.some.inj hpred⟩
        · rw [if_neg hc] at hpred
          simp at hpred
      obtain ⟨hh, hh24, hshape⟩ := hW.1 kv hkv
      have hkey : kv.1 = todayKey hh := by
        rcases hshape with hsh | hsh
        · exact hsh
        · exfalso
          have hends := tomorrowKey_ends hh hh24
          rw [hsh, hends] at hcond
          simpa using hcond.1
      have hlook : lookup data (todayKey hh) = some m := by
        rw [← hkey, ← hcond.2]
        exact lookup_of_mem data kv hkv hW.2
      have hex : ∃ x ∈ List.range 24,
          (fun h' => decide (lookup data (todayKey h') = some m)) x = true :=
        ⟨hh, List.mem_range.mpr hh24, by simp [hlook]⟩
      have hsome := List.find?_isSome.mpr hex
      cases hfind : (List.range 24).find?
          (fun h' => decide (lookup data (todayKey h') = some m)) with
      | none => rw [hfind] at hsome; simp at hsome
      | some h0 =>
        have hp0 : lookup data (todayKey h0) = some m := by
          simpa using List.find?_some hfind
        have hmem0 : h0 ∈ List.range 24 := List.mem_of_find?_eq_some hfind
        refine ⟨m, h0, ?_, List.mem_range.mp hmem0, hp0⟩
        simp [get_highest_price_today_with_hour, hmax, if_neg hdata, hfind]
  · cases hmin : get_lowest_price_day data with
    | none => left; simp [get_lowest_price_day_with_hour, hmin]
    | some m =>
      right
      have hdata : data ≠ [] := by
        intro h0
        rw [h0] at hmin
        exact absurd hmin (by simp [get_lowest_price_day])
      have hm_mem : m ∈ dayHours.filterMap (fun h' => lookup data (todayKey h')) := by
        unfold get_lowest_price_day at hmin
        rw [if_neg hdata] at hmin
        exact pyMin_mem _ m hmin
      obtain ⟨hh, hhmem, hlook⟩ := List.mem_filterMap.mp hm_mem
      have hex : ∃ x ∈ List.range' 6 12,
          (fun h' => decide (lookup data (todayKey h') = some m)) x = true :=
        ⟨hh, hhmem, by simp [hlook]⟩
      have hsome := List.find?_isSome.mpr hex
      cases hfind : (List.range' 6 12).find?
          (fun h' => decide (lookup data (todayKey h') = some m)) with
      | none => rw [hfind] at hsome; simp at hsome
      | some h0 =>
        have hp0 : lookup data (todayKey h0) = some m := by
          simpa using List.find?_some hfind
        have hmem0 : h0 ∈ List.range' 6 12 := List.mem_of_find?_eq_some hfind
        rw [List.mem_range'_1] at hmem0
        refine ⟨m, h0, ?_, by omega, by omega, hp0⟩
        simp [get_lowest_price_day_with_hour, hmin, if_neg hdata, hfind]
  · cases hmin : get_lowest_price_night data with
    | none => left; simp [get_lowest_price_night_with_hour, hmin]
    | some m =>
      right
      have hdata : data ≠ [] := by
        intro h0
        rw [h0] at hmin
        exact absurd hmin (by simp [get_lowest_price_night])
      have hm_mem : m ∈ (List.range' 18 6).filterMap (fun h' => lookup data (todayKey h'))
          ++ (List.range 6).filterMap (fun h' => lookup data (tomorrowKey h')) := by
        unfold get_lowest_price_night at hmin
        rw [if_neg hdata] at hmin
        exact pyMin_mem _ m hmin
      cases hfindE : (List.range' 18 6).find?
          (fun h' => decide (lookup data (todayKey h') = some m)) with
      | some h0 =>
        have hp0 : lookup data (todayKey h0) = some m := by
          simpa using List.find?_some hfindE
        have hmem0 : h0 ∈ List.range' 18 6 := List.mem_of_find?_eq_some hfindE
        rw [List.mem_range'_1] at hmem0
        refine ⟨m, h0, ?_, Or.inl ⟨by omega, by omega, hp0⟩⟩
        simp [get_lowest_price_night_with_hour, hmin, if_neg hdata, hfindE]
      | none =>
        have hEnone := List.find?_eq_none.mp hfindE
        have hmM : m ∈ (List.range 6).filterMap (fun h' => lookup data (tomorrowKey h')) := by
          rcases List.mem_append.mp hm_mem with hE | hM
          · exfalso
            obtain ⟨hh, hhmem, hlook⟩ := List.mem_filterMap.mp hE
            have hne := hEnone hh hhmem
            simp only [decide_eq_true_eq] at hne
            exact absurd hlook (by simpa using hne)
          · exact hM
        obtain ⟨hh, hhmem, hlook⟩ := List.mem_filterMap.mp hmM
        have hex : ∃ x ∈ List.range 6,
            (fun h' => decide (lookup data (tomorrowKey h') = some m)) x = true :=
          ⟨hh, hhmem, by simp [hlook]⟩
        have hsome := List.find?_isSome.mpr hex
        cases hfindM : (List.range 6).find?
            (fun h' => decide (lookup data (tomorrowKey h') = some m)) with
        | none => rw [hfindM] at hsome; simp at hsome
        | some h0 =>
          have hp0 : lookup data (tomorrowKey h0) = some m := by
            simpa using List.find?_some hfindM
          have hmem0 : h0 ∈ List.range 6 := List.mem_of_find?_eq_some hfindM
          refine ⟨m, h0, ?_, Or.inr ⟨List.mem_range.mp hmem0, hp0⟩⟩
          simp [get_lowest_price_night_with_hour, hmin, if_neg hdata, hfindE, hfindM]
  · rcases cheapest_day_cases data d with hn | ⟨a, h, hs⟩
    · left; exact hn
    · right
      have hs' := hs
      simp only [get_cheapest_duration_day] at hs'
      split_ifs at hs' with hg
      · exact absurd hs' (by simp)
      · push_neg at hg
        obtain ⟨i, hi, _, _, hhour, _, _⟩ :=
          findCheapestWindow_some data dayHours d false a h hs'
        have hilen : i < (hourPrices data dayHours false).length :=
          lt_of_lt_of_le hi (startCount_le _ d hg.2)
        obtain ⟨hhm, hfm⟩ := hourPrices_mem data dayHours false _ (getD_mem _ i hilen)
        unfold startHourAt at hhour
        rw [hhour] at hhm hfm
        rw [slotKey_false] at hfm
        exact ⟨a, h, hs, hhm, by rw [hfm]; simp⟩
  · rcases cheapest_night_cases data d with hn | ⟨a, h, hs⟩
    · left; exact hn
    · right
      have hs' := hs
      simp only [get_cheapest_duration_night] at hs'
      split_ifs at hs' with hg
      · exact absurd hs' (by simp)
      · push_neg at hg
        obtain ⟨i, hi, _, _, hhour, _, _⟩ :=
          findCheapestWindow_some data nightHours d true a h hs'
        have hilen : i < (hourPrices data nightHours true).length :=
          lt_of_lt_of_le hi (startCount_le _ d hg.2)
        obtain ⟨hhm, hfm⟩ := hourPrices_mem data nightHours true _ (getD_mem _ i hilen)
        unfold startHourAt at hhour
        rw [hhour] at hhm hfm
        exact ⟨a, h, hs, hhm, by rw [hfm]; simp⟩

/-- Witness for C10 at a one-entry well-formed map and duration 1. -/
theorem c10_pair_queries_consistent_witness :
    (get_highest_price_today_with_hour [("gpe_price_07", 1/4)] = (none, none) ∨
      ∃ pv hv, get_highest_price_today_with_hour [("gpe_price_07", 1/4)]
          = (some pv, some hv) ∧ hv < 24 ∧
        lookup [("gpe_price_07", 1/4)] (todayKey hv) = some pv) ∧
    (get_lowest_price_day_with_hour [("gpe_price_07", 1/4)] = (none, none) ∨
      ∃ pv hv, get_lowest_price_day_with_hour [("gpe_price_07", 1/4)]
          = (some pv, some hv) ∧
        6 ≤ hv ∧ hv < 18 ∧ lookup [("gpe_price_07", 1/4)] (todayKey hv) = some pv) ∧
    (get_lowest_price_night_with_hour [("gpe_price_07", 1/4)] = (none, none) ∨
      ∃ pv hv, get_lowest_price_night_with_hour [("gpe_price_07", 1/4)]
          = (some pv, some hv) ∧
        ((18 ≤ hv ∧ hv < 24 ∧ lookup [("gpe_price_07", 1/4)] (todayKey hv) = some pv) ∨
          (hv < 6 ∧ lookup [("gpe_price_07", 1/4)] (tomorrowKey hv) = some pv))) ∧
    (get_cheapest_duration_day [("gpe_price_07", 1/4)] 1 = (none, none) ∨
      ∃ pv hv, get_cheapest_duration_day [("gpe_price_07", 1/4)] 1 = (some pv, some hv) ∧
        hv ∈ dayHours ∧ lookup [("gpe_price_07", 1/4)] (todayKey hv) ≠ none) ∧
    (get_cheapest_duration_night [("gpe_price_07", 1/4)] 1 = (none, none) ∨
      ∃ pv hv, get_cheapest_duration_night [("gpe_price_07", 1/4)] 1 = (some pv, some hv) ∧
        hv ∈ nightHours ∧ lookup [("gpe_price_07", 1/4)] (slotKey true hv) ≠ none) :=
  c10_pair_queries_consistent [("gpe_price_07", 1/4)] 1
    (by constructor
        · intro kv hkv
          refine ⟨7, by omega, Or.inl ?_⟩
          rcases List.mem_cons.mp hkv with rfl | hkv'
          · rfl
          · simp at hkv'
        · with_unfolding_all decide)

/-! ### Reference-hour filtered entry points, modelled from the spec -/

/-- Modelled from the spec: the repository's test suite exercises an
optional `current_hour` parameter on the cheapest-duration entry points and
a Full-horizon `get_cheapest_duration`, but that parameterized
implementation is not part of the source file; only its tests are.  A slot
is `(isTomorrow, hour)`; the period sequences of §3 are
`Day` (today 6–17), `Night` (today 18–23 then tomorrow 0–5) and
`Full` (today 0–23 then tomorrow 0–23). -/
def daySlots : List (Bool × ℕ) := (List.range' 6 12).map (fun h => (false, h))

/-- Modelled from the spec: the Night slot sequence, wrapping midnight. -/
def nightSlots : List (Bool × ℕ) :=
  (List.range' 18 6).map (fun h => (false, h)) ++ (List.range 6).map (fun h => (true, h))

/-- Modelled from the spec: the Full horizon slot sequence. -/
def fullSlots : List (Bool × ℕ) :=
  (List.range 24).map (fun h => (false, h)) ++ (List.range 24).map (fun h => (true, h))

/-- Modelled from the spec: the reference-hour filter — "an optional
integer `current_hour` that excludes any Slot in Today whose hour is
strictly less than it; Tomorrow slots are never excluded". -/
def refFilter (refH : Option ℕ) (slots : List (Bool × ℕ)) : List (Bool × ℕ) :=
  match refH with
  | none => slots
  | some r => slots.filter (fun s => s.1 || decide (r ≤ s.2))

/-- Modelled from the spec: price key of a slot. -/
def slotKeyOf (s : Bool × ℕ) : String :=
  if s.1 then tomorrowKey s.2 else todayKey s.2

/-- Modelled from the spec: §4.1 materialization — walk the slot sequence
in order, skip absent slots, keep `(hour, price)`. -/
def slotPrices (data : PriceData) (slots : List (Bool × ℕ)) : List (ℕ × ℚ) :=
  slots.filterMap (fun s => (lookup data (slotKeyOf s)).map (fun p => (s.2, p)))

/-- Modelled from the spec: §4.3 — apply the reference-hour filter once, up
front, then run the same sliding-window minimum as `_find_cheapest_window`
(`duration <= 0` and the insufficient-data case yield the absent pair). -/
def cheapestWindowSpec (data : PriceData) (slots : List (Bool × ℕ)) (d : ℚ)
    (refH : Option ℕ) : Option ℚ × Option ℕ :=
  if d ≤ 0 then (none, none)
  else
    let hp := slotPrices data (refFilter refH slots)
    if hp = [] then (none, none)
    else
      match bestLoop (validAt hp d) (avgAt hp d) (startHourAt hp)
          (List.range (startCount hp.length d)) with
      | none => (none, none)
      | some b => (some b.1, some b.2)

/-- Modelled from the spec: Day entry point with `referenceHour`. -/
def get_cheapest_duration_day_ref (data : PriceData) (d : ℚ) (refH : Option ℕ) :
    Option ℚ × Option ℕ :=
  cheapestWindowSpec data daySlots d refH

/-- Modelled from the spec: Night entry point with `referenceHour`. -/
def get_cheapest_duration_night_ref (data : PriceData) (d : ℚ) (refH : Option ℕ) :
    Option ℚ × Option ℕ :=
  cheapestWindowSpec data nightSlots d refH

/-- Modelled from the spec: Full-horizon entry point `get_cheapest_duration`
with `referenceHour`. -/
def get_cheapest_duration (data : PriceData) (d : ℚ) (refH : Option ℕ) :
    Option ℚ × Option ℕ :=
  cheapestWindowSpec data fullSlots d refH

theorem slotPrices_mem (data : PriceData) (slots : List (Bool × ℕ)) (x : ℕ × ℚ)
    (hx : x ∈ slotPrices data slots) :
    ∃ s ∈ slots, s.2 = x.1 ∧ lookup data (slotKeyOf s) = some x.2 := by
  unfold slotPrices at hx
  obtain ⟨s, hs, hfs⟩ := List.mem_filterMap.mp hx
  cases hf : lookup data (slotKeyOf s) with
  | none => rw [hf] at hfs; simp at hfs
  | some p =>
    rw [hf] at hfs
    simp only [Option.map_some', Option.some.injEq] at hfs
    subst hfs
    exact ⟨s, hs, rfl, hf⟩

/-- Extraction of a successful reference-hour window search. -/
theorem cheapestWindowSpec_some (data : PriceData) (slots : List (Bool × ℕ)) (d : ℚ)
    (refH : Option ℕ) (a : ℚ) (h : ℕ)
    (hres : cheapestWindowSpec data slots d refH = (some a, some h)) :
    0 < d ∧ ∃ s ∈ refFilter refH slots, s.2 = h ∧ lookup data (slotKeyOf s) ≠ none := by
  simp only [cheapestWindowSpec] at hres
  split_ifs at hres with h1 h2
  · exact absurd hres (by simp)
  · exact absurd hres (by simp)
  · refine ⟨lt_of_not_le h1, ?_⟩
    cases hbl : bestLoop (validAt (slotPrices data (refFilter refH slots)) d)
        (avgAt (slotPrices data (refFilter refH slots)) d)
        (startHourAt (slotPrices data (refFilter refH slots)))
        (List.range (startCount (slotPrices data (refFilter refH slots)).length d)) with
    | none => rw [hbl] at hres; exact absurd hres (by simp)
    | some b =>
      rw [hbl] at hres
      dsimp only at hres
      have hb2 : b.2 = h := Option.some.inj (congrArg Prod.snd hres)
      obtain ⟨i, hi, _, _, hhour, _, _⟩ := bestLoop_range_spec _ _ _ _ _ _ hbl
      have hd : 0 < d := lt_of_not_le h1
      have hilen : i < (slotPrices data (refFilter refH slots)).length :=
        lt_of_lt_of_le hi (startCount_le _ d hd)
      obtain ⟨s, hs, hs2, hlk⟩ := slotPrices_mem data (refFilter refH slots) _
        (getD_mem _ i hilen)
      refine ⟨s, hs, ?_, by rw [hlk]; simp⟩
      rw [hs2]
      unfold startHourAt at hhour
      rw [hhour, hb2]

theorem daySlots_mem (s : Bool × ℕ) (hs : s ∈ daySlots) :
    s.1 = false ∧ 6 ≤ s.2 ∧ s.2 < 18 := by
  unfold daySlots at hs
  obtain ⟨hh, hmem, rfl⟩ := List.mem_map.mp hs
  rw [List.mem_range'_1] at hmem
  exact ⟨rfl, by omega, by omega⟩

theorem nightSlots_mem (s : Bool × ℕ) (hs : s ∈ nightSlots) :
    (s.1 = false ∧ 18 ≤ s.2 ∧ s.2 < 24) ∨ (s.1 = true ∧ s.2 < 6) := by
  unfold nightSlots at hs
  rcases List.mem_append.mp hs with hE | hM
  · obtain ⟨hh, hmem, rfl⟩ := List.mem_map.mp hE
    rw [List.mem_range'_1] at hmem
    exact Or.inl ⟨rfl, by omega, by omega⟩
  · obtain ⟨hh, hmem, rfl⟩ := List.mem_map.mp hM
    rw [List.mem_range] at hmem
    exact Or.inr ⟨rfl, hmem⟩

/-- C1: each reference-hour entry point (Day, Night, Full) filters out
exactly the Today slots whose hour is strictly below the reference hour and
never a Tomorrow slot, so the winning window never starts at a Today hour
below the reference hour: for Day the returned start hour is at least the
reference hour; for Night an evening (today) start hour is at least the
reference hour; for Full a start hour below the reference hour can only be
backed by a Tomorrow key. -/
theorem c1_reference_hour_filter (data : PriceData) (d : ℚ) (r : ℕ) (a : ℚ) (h : ℕ) :
    (∀ slots hh, (false, hh) ∈ refFilter (some r) slots → r ≤ hh) ∧
    (∀ (slots : List (Bool × ℕ)) s, s ∈ slots → s.1 = true →
      s ∈ refFilter (some r) slots) ∧
    (get_cheapest_duration_day_ref data d (some r) = (some a, some h) → r ≤ h) ∧
    (get_cheapest_duration_night_ref data d (some r) = (some a, some h) →
      18 ≤ h → r ≤ h) ∧
    (get_cheapest_duration data d (some r) = (some a, some h) → h < r →
      lookup data (tomorrowKey h) ≠ none) := by
  refine ⟨?_, ?_, ?_, ?_, ?_⟩
  · intro slots hh hmem
    obtain ⟨_, hpred⟩ := List.mem_filter.mp hmem
    simpa using hpred
  · intro slots s hmem htom
    exact List.mem_filter.mpr ⟨hmem, by simp [htom]⟩
  · intro hres
    obtain ⟨_, s, hs, hs2, _⟩ :=
      cheapestWindowSpec_some data daySlots d (some r) a h hres
    obtain ⟨hsd, hpred⟩ := List.mem_filter.mp hs
    obtain ⟨hfalse, _, _⟩ := daySlots_mem s hsd
    rw [hfalse] at hpred
    simp only [Bool.false_or, decide_eq_true_eq] at hpred
    omega
  · intro hres h18
    obtain ⟨_, s, hs, hs2, _⟩ :=
      cheapestWindowSpec_some data nightSlots d (some r) a h hres
    obtain ⟨hsn, hpred⟩ := List.mem_filter.mp hs
    rcases nightSlots_mem s hsn with ⟨hfalse, _, _⟩ | ⟨_, hlt⟩
    · rw [hfalse] at hpred
      simp only [Bool.false_or, decide_eq_true_eq] at hpred
      omega
    · omega
  · intro hres hlt
    obtain ⟨_, s, hs, hs2, hlk⟩ :=
      cheapestWindowSpec_some data fullSlots d (some r) a h hres
    obtain ⟨_, hpred⟩ := List.mem_filter.mp hs
    cases hst : s.1 with
    | false =>
      rw [hst] at hpred
      simp only [Bool.false_or, decide_eq_true_eq] at hpred
      omega
    | true =>
      rw [show slotKeyOf s = tomorrowKey s.2 from by simp [slotKeyOf, hst]] at hlk
      rw [hs2] at hlk
      exact hlk

/-- Witness for C1: three concrete maps with reference hour 14 at
duration 1, one per entry point. -/
theorem c1_reference_hour_filter_witness :
    (14 ≤ 16) ∧ (14 ≤ 20) ∧
    lookup [("gpe_price_16", 3), ("gpe_price_01_tomorrow", 1)] (tomorrowKey 1) ≠ none :=
  ⟨(c1_reference_hour_filter [("gpe_price_12", 2), ("gpe_price_16", 1)] 1 14 1 16).2.2.1
      (by with_unfolding_all decide),
    (c1_reference_hour_filter [("gpe_price_20", 3)] 1 14 3 20).2.2.2.1
      (by with_unfolding_all decide) (by norm_num),
    (c1_reference_hour_filter [("gpe_price_16", 3), ("gpe_price_01_tomorrow", 1)]
        1 14 1 1).2.2.2.2
      (by with_unfolding_all decide) (by norm_num)⟩
